import Mathlib

/-!
Shallow embedding of the probability-space library
(src/probability_space.h).

The C++ class is templated over an outcome type T with a total order.
Its state is a std::map<T, double> (the mass function), a std::set<T>
(the sample space, derived as the keys of the map), and a boolean mode
flag.  We embed:

* std::map<T, double>  as a list of key-value pairs List (T × ℚ); a
  real std::map additionally keeps its keys strictly sorted, hence
  distinct, which we carry as a Nodup hypothesis where it matters;
* std::set<T>          as Finset T (iteration in ascending key order is
  modelled by Finset.sort);
* double               as ℚ (exact arithmetic; every constant involved,
  including EPSILON = 1e-9, is a rational);
* a thrown std::invalid_argument as Except.error carrying the exception
  message string, which is the only datum a catcher can inspect.

Each private and public member function of the class is translated to a
Lean function of the same name acting on the ProbabilitySpace structure.
-/

set_option linter.unusedSectionVars false

namespace ProbEngine

/-- EPSILON from probability_space.h: the accuracy required for a valid
probability space to add up to one. -/
def EPSILON : ℚ := 1 / 1000000000

/-- Exception message thrown by validProbabilitySpace on a negative entry. -/
def negativeMassMsg : String := "Probabilities must be nonnegative"

/-- Exception message thrown by validProbabilitySpace on a sum mismatch. -/
def sumToOneMsg : String := "Probabilities must sum to 1"

/-- Exception message thrown by isSubset and by probabilityCalculator when
an event mentions an outcome outside the sample space. -/
def unknownOutcomeMsg : String := "Event contains outcome not in sample space"

/-- Exception message thrown by the conditional-probability query when the
conditioning event has probability exactly zero. -/
def conditionOnZeroMsg : String :=
  "Tried to calculate conditional probability P(A|B) with B s.t. P(B)=0"

variable {T : Type} [LinearOrder T]

/-- getKeys: the set of keys of the mapping (std::transform collecting
pair.first into a std::set). -/
def getKeys (pSpace : List (T × ℚ)) : Finset T :=
  (pSpace.map Prod.fst).toFinset

/-- The state of a ProbabilitySpace object: the stored mass function
(field space), the derived sample space (field events) and the mode flag
(field ignoreUnknown, default false as in the C++ member initializer). -/
structure ProbabilitySpace (T : Type) [LinearOrder T] where
  space : List (T × ℚ)
  events : Finset T
  ignoreUnknown : Bool
deriving DecidableEq

/-- isSubset: in strict mode require event ⊆ events (std::includes on the
two sorted ranges), throwing unknownOutcomeMsg otherwise; in permissive
mode no check is made. -/
def isSubset (ps : ProbabilitySpace T) (event : Finset T) : Except String Unit :=
  if ps.ignoreUnknown = false ∧ ¬ event ⊆ ps.events then
    Except.error unknownOutcomeMsg
  else
    Except.ok ()

/-- The loop of validProbabilitySpace: walk the entries accumulating the
total, throwing negativeMassMsg at the first negative value. -/
def sumEntries : List (T × ℚ) → ℚ → Except String ℚ
  | [], total => Except.ok total
  | (_, v) :: rest, total =>
    if v < 0 then Except.error negativeMassMsg
    else sumEntries rest (total + v)

/-- validProbabilitySpace: every value must be nonnegative and the total
must lie within EPSILON of 1, as a side-effect-free check. -/
def validProbabilitySpace (mapping : List (T × ℚ)) : Except String Unit :=
  match sumEntries mapping 0 with
  | Except.error e => Except.error e
  | Except.ok total =>
    if |total - 1| > EPSILON then Except.error sumToOneMsg
    else Except.ok ()

/-- space.find(outcome) on the stored map: the value bound to the key, if
any. -/
def findMass : List (T × ℚ) → T → Option ℚ
  | [], _ => none
  | (k, v) :: rest, o => if o = k then some v else findMass rest o

/-- The loop of probabilityCalculator: iterate the event's outcomes in
ascending order, look each one up in the map; a missing outcome throws
unknownOutcomeMsg in strict mode and is skipped in permissive mode, a
present outcome adds its mass to the accumulator. -/
def massLoop (space : List (T × ℚ)) (ignoreUnknown : Bool) :
    List T → ℚ → Except String ℚ
  | [], total => Except.ok total
  | outcome :: rest, total =>
    match findMass space outcome with
    | none =>
      if ignoreUnknown = false then Except.error unknownOutcomeMsg
      else massLoop space ignoreUnknown rest total
    | some v => massLoop space ignoreUnknown rest (total + v)

/-- probabilityCalculator: the subset check followed by the mass
aggregation loop over the event in ascending order. -/
def probabilityCalculator (ps : ProbabilitySpace T) (event : Finset T) :
    Except String ℚ :=
  match isSubset ps event with
  | Except.error e => Except.error e
  | Except.ok _ => massLoop ps.space ps.ignoreUnknown (event.sort (· ≤ ·)) 0

/-- complement: 1 − P(event); the subset check happens inside
probabilityCalculator. -/
def complement (ps : ProbabilitySpace T) (event : Finset T) : Except String ℚ :=
  match probabilityCalculator ps event with
  | Except.error e => Except.error e
  | Except.ok p => Except.ok (1 - p)

/-- unionEvents: check both events, merge them (std::set_union of two
sorted ranges is exactly the finite-set union), then aggregate. -/
def unionEvents (ps : ProbabilitySpace T) (eventA eventB : Finset T) :
    Except String ℚ :=
  match isSubset ps eventA with
  | Except.error e => Except.error e
  | Except.ok _ =>
    match isSubset ps eventB with
    | Except.error e => Except.error e
    | Except.ok _ => probabilityCalculator ps (eventA ∪ eventB)

/-- intersectionEvents: check both events, intersect them
(std::set_intersection of two sorted ranges), then aggregate. -/
def intersectionEvents (ps : ProbabilitySpace T) (eventA eventB : Finset T) :
    Except String ℚ :=
  match isSubset ps eventA with
  | Except.error e => Except.error e
  | Except.ok _ =>
    match isSubset ps eventB with
    | Except.error e => Except.error e
    | Except.ok _ => probabilityCalculator ps (eventA ∩ eventB)

/-- The private conditional-probability member: check both events, compute
P(B); when P(B) ≠ 0 (an exact comparison, not an EPSILON one) return
P(A ∩ B) / P(B), otherwise throw conditionOnZeroMsg. -/
def conditionalProbabilityImpl (ps : ProbabilitySpace T)
    (eventA eventB : Finset T) : Except String ℚ :=
  match isSubset ps eventA with
  | Except.error e => Except.error e
  | Except.ok _ =>
    match isSubset ps eventB with
    | Except.error e => Except.error e
    | Except.ok _ =>
      match probabilityCalculator ps eventB with
      | Except.error e => Except.error e
      | Except.ok probB =>
        if probB ≠ 0 then
          match intersectionEvents ps eventA eventB with
          | Except.error e => Except.error e
          | Except.ok probAnB => Except.ok (probAnB / probB)
        else Except.error conditionOnZeroMsg

/-- The constructor ProbabilitySpace(mapping): validate, derive the key
set, store the mapping; the mode flag starts out false. -/
def construct (mapping : List (T × ℚ)) : Except String (ProbabilitySpace T) :=
  match validProbabilitySpace mapping with
  | Except.error e => Except.error e
  | Except.ok _ =>
    Except.ok { space := mapping, events := getKeys mapping, ignoreUnknown := false }

/-- Public query probabilityOfSet, delegating to probabilityCalculator. -/
def probabilityOfSet (ps : ProbabilitySpace T) (event : Finset T) :
    Except String ℚ :=
  probabilityCalculator ps event

/-- Public query complementOfEvent, delegating to complement. -/
def complementOfEvent (ps : ProbabilitySpace T) (event : Finset T) :
    Except String ℚ :=
  complement ps event

/-- Public query unionOfEvents, delegating to unionEvents. -/
def unionOfEvents (ps : ProbabilitySpace T) (eventA eventB : Finset T) :
    Except String ℚ :=
  unionEvents ps eventA eventB

/-- Public query intersectionOfEvents, delegating to intersectionEvents. -/
def intersectionOfEvents (ps : ProbabilitySpace T) (eventA eventB : Finset T) :
    Except String ℚ :=
  intersectionEvents ps eventA eventB

/-- Public query conditionalProbability, delegating to the private member. -/
def conditionalProbability (ps : ProbabilitySpace T) (eventA eventB : Finset T) :
    Except String ℚ :=
  conditionalProbabilityImpl ps eventA eventB

/-- getCurrentMode: read the mode flag. -/
def getCurrentMode (ps : ProbabilitySpace T) : Bool :=
  ps.ignoreUnknown

/-- setIgnoreUnknown: overwrite the mode flag; the method touches no other
member. -/
def setIgnoreUnknown (ps : ProbabilitySpace T) (mode : Bool) :
    ProbabilitySpace T :=
  { ps with ignoreUnknown := mode }

/-- The total mass of a mapping: the sum of its values, the quantity the
validation loop accumulates. -/
def totalMass (l : List (T × ℚ)) : ℚ :=
  (l.map Prod.snd).sum

/-- The mathematical mass of an event against a stored map: the sum over
the event's outcomes of the bound mass, counting absent outcomes as 0. -/
def massOf (space : List (T × ℚ)) (event : Finset T) : ℚ :=
  ∑ o ∈ event, ((findMass space o).getD 0)

/-- A state reachable by constructing a space (and possibly toggling the
mode flag afterwards): the keys of the stored map are distinct (a std::map
invariant), the events field is the key set, and validation passed. -/
def WellFormed (ps : ProbabilitySpace T) : Prop :=
  (ps.space.map Prod.fst).Nodup ∧
  ps.events = getKeys ps.space ∧
  validProbabilitySpace ps.space = Except.ok ()

/-- A key is found by findMass exactly when it occurs among the keys. -/
lemma findMass_isSome_iff (l : List (T × ℚ)) (o : T) :
    (findMass l o).isSome ↔ o ∈ l.map Prod.fst := by
  induction l with
  | nil => simp [findMass]
  | cons p rest ih =>
    obtain ⟨k, v⟩ := p
    by_cases h : o = k
    · simp [findMass, h]
    · simp [findMass, h, ih]

/-- findMass returns none exactly on keys absent from the map. -/
lemma findMass_eq_none_iff (l : List (T × ℚ)) (o : T) :
    findMass l o = none ↔ o ∉ l.map Prod.fst := by
  rw [← findMass_isSome_iff, Option.not_isSome_iff_eq_none]

/-- In a map with only nonnegative values, every lookup (defaulted to 0)
is nonnegative. -/
lemma findMass_getD_nonneg (l : List (T × ℚ)) (o : T)
    (hall : ∀ p ∈ l, 0 ≤ p.2) : 0 ≤ (findMass l o).getD 0 := by
  induction l with
  | nil => simp [findMass]
  | cons p rest ih =>
    obtain ⟨k, v⟩ := p
    by_cases h : o = k
    · simpa [findMass, h] using hall (k, v) (List.mem_cons_self _ _)
    · simpa [findMass, h] using ih fun q hq => hall q (List.mem_cons_of_mem _ hq)

/-- The validation loop succeeds on an all-nonnegative list and returns
the accumulator plus the total of the values. -/
lemma sumEntries_ok (l : List (T × ℚ)) (acc : ℚ) (hall : ∀ p ∈ l, 0 ≤ p.2) :
    sumEntries l acc = Except.ok (acc + totalMass l) := by
  induction l generalizing acc with
  | nil => simp [sumEntries, totalMass]
  | cons p rest ih =>
    obtain ⟨k, v⟩ := p
    have hv : 0 ≤ v := hall (k, v) (List.mem_cons_self _ _)
    rw [sumEntries, if_neg (not_lt.mpr hv),
      ih (acc + v) fun q hq => hall q (List.mem_cons_of_mem _ hq)]
    congr 1
    simp only [totalMass, List.map_cons, List.sum_cons]
    ring

/-- If the validation loop succeeds, every value in the list is
nonnegative. -/
lemma sumEntries_ok_inv (l : List (T × ℚ)) (acc t : ℚ)
    (h : sumEntries l acc = Except.ok t) : ∀ p ∈ l, 0 ≤ p.2 := by
  induction l generalizing acc with
  | nil => simp
  | cons p rest ih =>
    obtain ⟨k, v⟩ := p
    rw [sumEntries] at h
    by_cases hv : v < 0
    · rw [if_pos hv] at h
      exact absurd h (by simp)
    · rw [if_neg hv] at h
      intro q hq
      rcases List.mem_cons.mp hq with hq | hq
      · subst hq; exact not_lt.mp hv
      · exact ih (acc + v) h q hq

/-- The validation loop fails exactly with the negative-mass message. -/
lemma sumEntries_error_msg (l : List (T × ℚ)) (acc : ℚ) (e : String)
    (h : sumEntries l acc = Except.error e) : e = negativeMassMsg := by
  induction l generalizing acc with
  | nil => exact absurd h (by simp [sumEntries])
  | cons p rest ih =>
    obtain ⟨k, v⟩ := p
    rw [sumEntries] at h
    by_cases hv : v < 0
    · rw [if_pos hv] at h
      injection h with h
      exact h.symm
    · rw [if_neg hv] at h
      exact ih (acc + v) h

/-- The validation loop fails with the negative-mass message as soon as a
negative value occurs. -/
lemma sumEntries_err (l : List (T × ℚ)) (acc : ℚ)
    (hneg : ∃ p ∈ l, p.2 < 0) :
    sumEntries l acc = Except.error negativeMassMsg := by
  induction l generalizing acc with
  | nil => simp at hneg
  | cons p rest ih =>
    obtain ⟨k, v⟩ := p
    rw [sumEntries]
    by_cases hv : v < 0
    · rw [if_pos hv]
    · rw [if_neg hv]
      obtain ⟨q, hq, hq2⟩ := hneg
      rcases List.mem_cons.mp hq with hq | hq
      · subst hq; exact absurd hq2 hv
      · exact ih (acc + v) ⟨q, hq, hq2⟩

/-- Validation succeeds exactly when every value is nonnegative and the
total mass is within EPSILON of 1. -/
lemma valid_ok_iff (M : List (T × ℚ)) :
    validProbabilitySpace M = Except.ok () ↔
      (∀ p ∈ M, 0 ≤ p.2) ∧ |totalMass M - 1| ≤ EPSILON := by
  constructor
  · intro h
    simp only [validProbabilitySpace] at h
    cases hse : sumEntries M 0 with
    | error e => rw [hse] at h; exact absurd h (by simp)
    | ok t =>
      rw [hse] at h
      dsimp only at h
      have hall := sumEntries_ok_inv M 0 t hse
      have ht : t = totalMass M := by
        have h2 := sumEntries_ok M 0 hall
        rw [hse] at h2
        injection h2 with h2
        rw [h2, zero_add]
      by_cases hgt : |t - 1| > EPSILON
      · rw [if_pos hgt] at h
        exact absurd h (by simp)
      · exact ⟨hall, ht ▸ not_lt.mp hgt⟩
  · intro ⟨hall, hle⟩
    simp only [validProbabilitySpace]
    rw [sumEntries_ok M 0 hall, zero_add]
    dsimp only
    rw [if_neg (not_lt.mpr hle)]

/-- A validation failure carries one of the two InvalidDistribution
messages. -/
lemma valid_error_msg (M : List (T × ℚ)) (e : String)
    (h : validProbabilitySpace M = Except.error e) :
    e = negativeMassMsg ∨ e = sumToOneMsg := by
  simp only [validProbabilitySpace] at h
  cases hse : sumEntries M 0 with
  | error e' =>
    rw [hse] at h
    injection h with h
    exact Or.inl (h ▸ sumEntries_error_msg M 0 e' hse)
  | ok t =>
    rw [hse] at h
    dsimp only at h
    by_cases hgt : |t - 1| > EPSILON
    · rw [if_pos hgt] at h
      injection h with h
      exact Or.inr h.symm
    · rw [if_neg hgt] at h
      exact absurd h (by simp)

/-- The mass-aggregation loop succeeds whenever strict mode implies every
listed outcome is a key, and returns the accumulator plus the masses. -/
lemma massLoop_ok (space : List (T × ℚ)) (ig : Bool) (l : List T) (acc : ℚ)
    (h : ig = false → ∀ o ∈ l, o ∈ space.map Prod.fst) :
    massLoop space ig l acc =
      Except.ok (acc + (l.map fun o => (findMass space o).getD 0).sum) := by
  induction l generalizing acc with
  | nil => simp [massLoop]
  | cons o rest ih =>
    cases hfm : findMass space o with
    | none =>
      have hig : ig = true := by
        cases ig
        · exact absurd ((findMass_eq_none_iff _ _).mp hfm)
            (not_not_intro (h rfl o (List.mem_cons_self _ _)))
        · rfl
      subst hig
      rw [massLoop, hfm]
      dsimp only
      rw [if_neg (by simp), ih acc fun hf => absurd hf (by simp)]
      congr 1
      simp [hfm]
    | some v =>
      rw [massLoop, hfm]
      dsimp only
      rw [ih (acc + v) fun hig o' ho' => h hig o' (List.mem_cons_of_mem _ ho')]
      congr 1
      simp [hfm]
      ring

/-- A failing mass-aggregation loop carries the unknown-outcome message. -/
lemma massLoop_error_msg (space : List (T × ℚ)) (ig : Bool) (l : List T)
    (acc : ℚ) (e : String) (h : massLoop space ig l acc = Except.error e) :
    e = unknownOutcomeMsg := by
  induction l generalizing acc with
  | nil => exact absurd h (by simp [massLoop])
  | cons o rest ih =>
    rw [massLoop] at h
    cases hfm : findMass space o with
    | none =>
      rw [hfm] at h
      cases ig with
      | false =>
        rw [if_pos rfl] at h
        injection h with h
        exact h.symm
      | true => exact ih acc (by rw [if_neg (by simp)] at h; exact h)
    | some v =>
      rw [hfm] at h
      exact ih (acc + v) h

/-- Summing a function over the sorted list of a finite set is summing it
over the set. -/
lemma sum_sort_map (E : Finset T) (f : T → ℚ) :
    ((E.sort (· ≤ ·)).map f).sum = ∑ o ∈ E, f o := by
  rw [← Finset.sum_to_list]
  exact List.Perm.sum_eq (List.Perm.map f (Finset.sort_perm_toList (· ≤ ·) E))

/-- The mass of the empty event is 0. -/
lemma massOf_empty (l : List (T × ℚ)) : massOf l ∅ = 0 := by
  simp [massOf]

/-- Over a map with distinct keys, the mass of the full key set is the
total mass of the map. -/
lemma massOf_getKeys (l : List (T × ℚ)) (hnd : (l.map Prod.fst).Nodup) :
    massOf l (getKeys l) = totalMass l := by
  induction l with
  | nil => simp [massOf, getKeys, totalMass]
  | cons p rest ih =>
    obtain ⟨k, v⟩ := p
    rw [List.map_cons, List.nodup_cons] at hnd
    obtain ⟨hk, hrest⟩ := hnd
    have hins : getKeys ((k, v) :: rest) = insert k (getKeys rest) := by
      simp [getKeys]
    have hknotin : k ∉ getKeys rest := by
      simp only [getKeys, List.mem_toFinset]
      exact hk
    have h2 : ∀ o ∈ getKeys rest,
        (findMass ((k, v) :: rest) o).getD 0 = (findMass rest o).getD 0 := by
      intro o ho
      have hne : o ≠ k := fun he => hknotin (he ▸ ho)
      simp [findMass, hne]
    rw [massOf, hins, Finset.sum_insert hknotin, Finset.sum_congr rfl h2]
    have h1 : (findMass ((k, v) :: rest) k).getD 0 = v := by simp [findMass]
    rw [h1]
    have : ∑ o ∈ getKeys rest, (findMass rest o).getD 0 = totalMass rest :=
      ih hrest
    rw [this]
    simp [totalMass]

/-- Over an all-nonnegative map, every event mass is nonnegative. -/
lemma massOf_nonneg (l : List (T × ℚ)) (E : Finset T)
    (hall : ∀ p ∈ l, 0 ≤ p.2) : 0 ≤ massOf l E :=
  Finset.sum_nonneg fun o _ => findMass_getD_nonneg l o hall

/-- Over an all-nonnegative map with distinct keys, the mass of an event
inside the key set is at most the total mass. -/
lemma massOf_le_totalMass (l : List (T × ℚ)) (E : Finset T)
    (hnd : (l.map Prod.fst).Nodup) (hall : ∀ p ∈ l, 0 ≤ p.2)
    (hE : E ⊆ getKeys l) : massOf l E ≤ totalMass l := by
  calc massOf l E ≤ massOf l (getKeys l) :=
        Finset.sum_le_sum_of_subset_of_nonneg hE
          fun i _ _ => findMass_getD_nonneg l i hall
  _ = totalMass l := massOf_getKeys l hnd

/-- Outcomes outside the key set contribute nothing: the event mass is the
sum over the outcomes of the event that are keys. -/
lemma massOf_filter (l : List (T × ℚ)) (E : Finset T) :
    massOf l E =
      ∑ o ∈ E.filter (fun o => o ∈ getKeys l), (findMass l o).getD 0 := by
  rw [massOf]
  symm
  apply Finset.sum_subset (Finset.filter_subset _ _)
  intro x hx hnx
  have hxk : x ∉ getKeys l := fun hmem => hnx (Finset.mem_filter.mpr ⟨hx, hmem⟩)
  have hnone : findMass l x = none := by
    rw [findMass_eq_none_iff]
    simpa [getKeys] using hxk
  simp [hnone]

/-- Inclusion-exclusion for event masses, as an exact identity of
rationals. -/
lemma massOf_union_inter (l : List (T × ℚ)) (A B : Finset T) :
    massOf l (A ∪ B) + massOf l (A ∩ B) = massOf l A + massOf l B := by
  simp only [massOf]
  exact Finset.sum_union_inter

/-- Characterization of probabilityCalculator on any state whose events
field is the key set of its map: the strict-mode subset failure, else the
event mass. -/
lemma probabilityCalculator_eq (ps : ProbabilitySpace T)
    (hkeys : ps.events = getKeys ps.space) (E : Finset T) :
    probabilityCalculator ps E =
      if ps.ignoreUnknown = false ∧ ¬ E ⊆ ps.events then
        Except.error unknownOutcomeMsg
      else Except.ok (massOf ps.space E) := by
  by_cases hc : ps.ignoreUnknown = false ∧ ¬ E ⊆ ps.events
  · rw [if_pos hc]
    simp [probabilityCalculator, isSubset, hc]
  · rw [if_neg hc]
    have hsub : ps.ignoreUnknown = false → E ⊆ ps.events := by
      intro hig
      by_contra hns
      exact hc ⟨hig, hns⟩
    simp only [probabilityCalculator, isSubset, if_neg hc]
    rw [massLoop_ok]
    · rw [zero_add, sum_sort_map]
      rfl
    · intro hig o ho
      rw [Finset.mem_sort] at ho
      have := hsub hig ho
      rw [hkeys] at this
      simpa [getKeys] using this

/-- Characterization of the public probability query. -/
lemma probabilityOfSet_eq (ps : ProbabilitySpace T)
    (hkeys : ps.events = getKeys ps.space) (E : Finset T) :
    probabilityOfSet ps E =
      if ps.ignoreUnknown = false ∧ ¬ E ⊆ ps.events then
        Except.error unknownOutcomeMsg
      else Except.ok (massOf ps.space E) :=
  probabilityCalculator_eq ps hkeys E

/-- Characterization of the public complement query. -/
lemma complementOfEvent_eq (ps : ProbabilitySpace T)
    (hkeys : ps.events = getKeys ps.space) (E : Finset T) :
    complementOfEvent ps E =
      if ps.ignoreUnknown = false ∧ ¬ E ⊆ ps.events then
        Except.error unknownOutcomeMsg
      else Except.ok (1 - massOf ps.space E) := by
  rw [complementOfEvent, complement, probabilityCalculator_eq ps hkeys E]
  by_cases hc : ps.ignoreUnknown = false ∧ ¬ E ⊆ ps.events
  · rw [if_pos hc, if_pos hc]
  · rw [if_neg hc, if_neg hc]

/-- Characterization of the private union query. -/
lemma unionEvents_eq (ps : ProbabilitySpace T)
    (hkeys : ps.events = getKeys ps.space) (A B : Finset T) :
    unionEvents ps A B =
      if ps.ignoreUnknown = false ∧ ¬ A ⊆ ps.events then
        Except.error unknownOutcomeMsg
      else if ps.ignoreUnknown = false ∧ ¬ B ⊆ ps.events then
        Except.error unknownOutcomeMsg
      else Except.ok (massOf ps.space (A ∪ B)) := by
  by_cases hA : ps.ignoreUnknown = false ∧ ¬ A ⊆ ps.events
  · rw [if_pos hA]
    simp [unionEvents, isSubset, hA]
  · rw [if_neg hA]
    by_cases hB : ps.ignoreUnknown = false ∧ ¬ B ⊆ ps.events
    · rw [if_pos hB]
      simp only [unionEvents, isSubset, if_neg hA, if_pos hB]
    · rw [if_neg hB]
      simp only [unionEvents, isSubset, if_neg hA, if_neg hB]
      rw [probabilityCalculator_eq ps hkeys]
      rw [if_neg]
      intro ⟨hig, hAB⟩
      have hsA : A ⊆ ps.events := by
        by_contra hns
        exact hA ⟨hig, hns⟩
      have hsB : B ⊆ ps.events := by
        by_contra hns
        exact hB ⟨hig, hns⟩
      exact hAB (Finset.union_subset hsA hsB)

/-- Characterization of the private intersection query. -/
lemma intersectionEvents_eq (ps : ProbabilitySpace T)
    (hkeys : ps.events = getKeys ps.space) (A B : Finset T) :
    intersectionEvents ps A B =
      if ps.ignoreUnknown = false ∧ ¬ A ⊆ ps.events then
        Except.error unknownOutcomeMsg
      else if ps.ignoreUnknown = false ∧ ¬ B ⊆ ps.events then
        Except.error unknownOutcomeMsg
      else Except.ok (massOf ps.space (A ∩ B)) := by
  by_cases hA : ps.ignoreUnknown = false ∧ ¬ A ⊆ ps.events
  · rw [if_pos hA]
    simp [intersectionEvents, isSubset, hA]
  · rw [if_neg hA]
    by_cases hB : ps.ignoreUnknown = false ∧ ¬ B ⊆ ps.events
    · rw [if_pos hB]
      simp only [intersectionEvents, isSubset, if_neg hA, if_pos hB]
    · rw [if_neg hB]
      simp only [intersectionEvents, isSubset, if_neg hA, if_neg hB]
      rw [probabilityCalculator_eq ps hkeys]
      rw [if_neg]
      intro ⟨hig, hAB⟩
      have hsA : A ⊆ ps.events := by
        by_contra hns
        exact hA ⟨hig, hns⟩
      exact hAB fun x hx => hsA (Finset.mem_inter.mp hx).1

/-- Characterization of the public union query. -/
lemma unionOfEvents_eq (ps : ProbabilitySpace T)
    (hkeys : ps.events = getKeys ps.space) (A B : Finset T) :
    unionOfEvents ps A B =
      if ps.ignoreUnknown = false ∧ ¬ A ⊆ ps.events then
        Except.error unknownOutcomeMsg
      else if ps.ignoreUnknown = false ∧ ¬ B ⊆ ps.events then
        Except.error unknownOutcomeMsg
      else Except.ok (massOf ps.space (A ∪ B)) :=
  unionEvents_eq ps hkeys A B

/-- Characterization of the public intersection query. -/
lemma intersectionOfEvents_eq (ps : ProbabilitySpace T)
    (hkeys : ps.events = getKeys ps.space) (A B : Finset T) :
    intersectionOfEvents ps A B =
      if ps.ignoreUnknown = false ∧ ¬ A ⊆ ps.events then
        Except.error unknownOutcomeMsg
      else if ps.ignoreUnknown = false ∧ ¬ B ⊆ ps.events then
        Except.error unknownOutcomeMsg
      else Except.ok (massOf ps.space (A ∩ B)) :=
  intersectionEvents_eq ps hkeys A B

/-- Characterization of the public conditional-probability query. -/
lemma conditionalProbability_eq (ps : ProbabilitySpace T)
    (hkeys : ps.events = getKeys ps.space) (A B : Finset T) :
    conditionalProbability ps A B =
      if ps.ignoreUnknown = false ∧ ¬ A ⊆ ps.events then
        Except.error unknownOutcomeMsg
      else if ps.ignoreUnknown = false ∧ ¬ B ⊆ ps.events then
        Except.error unknownOutcomeMsg
      else if massOf ps.space B = 0 then
        Except.error conditionOnZeroMsg
      else Except.ok (massOf ps.space (A ∩ B) / massOf ps.space B) := by
  by_cases hA : ps.ignoreUnknown = false ∧ ¬ A ⊆ ps.events
  · rw [if_pos hA]
    simp [conditionalProbability, conditionalProbabilityImpl, isSubset, hA]
  · rw [if_neg hA]
    by_cases hB : ps.ignoreUnknown = false ∧ ¬ B ⊆ ps.events
    · rw [if_pos hB]
      simp only [conditionalProbability, conditionalProbabilityImpl, isSubset,
        if_neg hA, if_pos hB]
    · rw [if_neg hB]
      simp only [conditionalProbability, conditionalProbabilityImpl, isSubset,
        if_neg hA, if_neg hB]
      rw [probabilityCalculator_eq ps hkeys B, if_neg hB]
      dsimp only
      by_cases hz : massOf ps.space B = 0
      · rw [if_pos hz, if_neg (by simpa using hz)]
      · rw [if_neg hz, if_pos hz]
        rw [intersectionEvents_eq ps hkeys A B, if_neg hA, if_neg hB]

/-- The constructor succeeds exactly when validation passes, and then
returns the state holding the mapping, its key set and a false flag. -/
lemma construct_ok_iff (M : List (T × ℚ)) (ps : ProbabilitySpace T) :
    construct M = Except.ok ps ↔
      validProbabilitySpace M = Except.ok () ∧
        ps = ⟨M, getKeys M, false⟩ := by
  simp only [construct]
  cases h : validProbabilitySpace M with
  | error e => simp [h]
  | ok u =>
    cases u
    constructor
    · intro he
      dsimp only at he
      injection he with he
      exact ⟨rfl, he.symm⟩
    · intro ⟨_, he⟩
      rw [he]

/-- The constructor fails exactly when validation fails, with the same
message. -/
lemma construct_error_iff (M : List (T × ℚ)) (e : String) :
    construct M = Except.error e ↔
      validProbabilitySpace M = Except.error e := by
  simp only [construct]
  cases h : validProbabilitySpace M with
  | error e' => simp
  | ok u => simp

/-- A successfully constructed state over a map with distinct keys is
well-formed. -/
lemma construct_wellFormed (M : List (T × ℚ)) (ps : ProbabilitySpace T)
    (hnd : (M.map Prod.fst).Nodup) (h : construct M = Except.ok ps) :
    WellFormed ps := by
  obtain ⟨hv, hps⟩ := (construct_ok_iff M ps).mp h
  subst hps
  exact ⟨hnd, rfl, hv⟩

/-- Toggling the mode flag preserves well-formedness. -/
lemma wellFormed_setIgnoreUnknown (ps : ProbabilitySpace T) (b : Bool) :
    WellFormed (setIgnoreUnknown ps b) ↔ WellFormed ps := by
  simp [WellFormed, setIgnoreUnknown]

/-- A failing subset check carries the unknown-outcome message. -/
lemma isSubset_error_msg (ps : ProbabilitySpace T) (E : Finset T) (e : String)
    (h : isSubset ps E = Except.error e) : e = unknownOutcomeMsg := by
  rw [isSubset] at h
  split_ifs at h
  injection h with h
  exact h.symm

/-- The subset check either succeeds or fails with the unknown-outcome
message. -/
lemma isSubset_cases (ps : ProbabilitySpace T) (E : Finset T) :
    isSubset ps E = Except.ok () ∨
      isSubset ps E = Except.error unknownOutcomeMsg := by
  rw [isSubset]
  split_ifs
  · exact Or.inr rfl
  · exact Or.inl rfl

/-- A failing probabilityCalculator carries the unknown-outcome message. -/
lemma probabilityCalculator_error_msg (ps : ProbabilitySpace T) (E : Finset T)
    (e : String) (h : probabilityCalculator ps E = Except.error e) :
    e = unknownOutcomeMsg := by
  rw [probabilityCalculator] at h
  cases his : isSubset ps E with
  | error e' =>
    rw [his] at h
    dsimp only at h
    injection h with h
    exact h ▸ isSubset_error_msg ps E e' his
  | ok u =>
    rw [his] at h
    dsimp only at h
    exact massLoop_error_msg _ _ _ _ _ h

/-- A failing complement carries the unknown-outcome message. -/
lemma complement_error_msg (ps : ProbabilitySpace T) (E : Finset T)
    (e : String) (h : complement ps E = Except.error e) :
    e = unknownOutcomeMsg := by
  rw [complement] at h
  cases hp : probabilityCalculator ps E with
  | error e' =>
    rw [hp] at h
    dsimp only at h
    injection h with h
    exact h ▸ probabilityCalculator_error_msg ps E e' hp
  | ok p =>
    rw [hp] at h
    exact absurd h (by simp)

/-- A failing union query carries the unknown-outcome message. -/
lemma unionEvents_error_msg (ps : ProbabilitySpace T) (A B : Finset T)
    (e : String) (h : unionEvents ps A B = Except.error e) :
    e = unknownOutcomeMsg := by
  rw [unionEvents] at h
  cases hA : isSubset ps A with
  | error e' =>
    rw [hA] at h
    dsimp only at h
    injection h with h
    exact h ▸ isSubset_error_msg ps A e' hA
  | ok u =>
    rw [hA] at h
    dsimp only at h
    cases hB : isSubset ps B with
    | error e' =>
      rw [hB] at h
      dsimp only at h
      injection h with h
      exact h ▸ isSubset_error_msg ps B e' hB
    | ok u' =>
      rw [hB] at h
      dsimp only at h
      exact probabilityCalculator_error_msg ps (A ∪ B) e h

/-- A failing intersection query carries the unknown-outcome message. -/
lemma intersectionEvents_error_msg (ps : ProbabilitySpace T) (A B : Finset T)
    (e : String) (h : intersectionEvents ps A B = Except.error e) :
    e = unknownOutcomeMsg := by
  rw [intersectionEvents] at h
  cases hA : isSubset ps A with
  | error e' =>
    rw [hA] at h
    dsimp only at h
    injection h with h
    exact h ▸ isSubset_error_msg ps A e' hA
  | ok u =>
    rw [hA] at h
    dsimp only at h
    cases hB : isSubset ps B with
    | error e' =>
      rw [hB] at h
      dsimp only at h
      injection h with h
      exact h ▸ isSubset_error_msg ps B e' hB
    | ok u' =>
      rw [hB] at h
      dsimp only at h
      exact probabilityCalculator_error_msg ps (A ∩ B) e h

/-- A failing conditional query carries the unknown-outcome or the
condition-on-zero message. -/
lemma conditionalProbabilityImpl_error_msg (ps : ProbabilitySpace T)
    (A B : Finset T) (e : String)
    (h : conditionalProbabilityImpl ps A B = Except.error e) :
    e = unknownOutcomeMsg ∨ e = conditionOnZeroMsg := by
  rw [conditionalProbabilityImpl] at h
  cases hA : isSubset ps A with
  | error e' =>
    rw [hA] at h
    dsimp only at h
    injection h with h
    exact Or.inl (h ▸ isSubset_error_msg ps A e' hA)
  | ok u =>
    rw [hA] at h
    dsimp only at h
    cases hB : isSubset ps B with
    | error e' =>
      rw [hB] at h
      dsimp only at h
      injection h with h
      exact Or.inl (h ▸ isSubset_error_msg ps B e' hB)
    | ok u' =>
      rw [hB] at h
      dsimp only at h
      cases hp : probabilityCalculator ps B with
      | error e' =>
        rw [hp] at h
        dsimp only at h
        injection h with h
        exact Or.inl (h ▸ probabilityCalculator_error_msg ps B e' hp)
      | ok probB =>
        rw [hp] at h
        dsimp only at h
        by_cases hz : probB ≠ 0
        · rw [if_pos hz] at h
          cases hi : intersectionEvents ps A B with
          | error e' =>
            rw [hi] at h
            dsimp only at h
            injection h with h
            exact Or.inl (h ▸ intersectionEvents_error_msg ps A B e' hi)
          | ok probAnB =>
            rw [hi] at h
            exact absurd h (by simp)
        · rw [if_neg hz] at h
          injection h with h
          exact Or.inr h.symm

/-- The two-outcome fair-coin mass function, keyed by 0 and 1. -/
def coinM : List (ℕ × ℚ) := [(0, 1 / 2), (1, 1 / 2)]

/-- The state constructed from the fair-coin mass function. -/
def coinPS : ProbabilitySpace ℕ :=
  { space := coinM, events := getKeys coinM, ignoreUnknown := false }

/-- The fair-coin mass function passes validation. -/
lemma coin_valid : validProbabilitySpace coinM = Except.ok () := by
  rw [valid_ok_iff]
  constructor
  · intro p hp
    simp only [coinM, List.mem_cons, List.not_mem_nil, or_false] at hp
    rcases hp with h | h <;> rw [h] <;> norm_num
  · rw [show totalMass coinM = 1 from by norm_num [totalMass, coinM]]
    norm_num [EPSILON]

/-- Constructing from the fair-coin mass function yields coinPS. -/
lemma coin_construct : construct coinM = Except.ok coinPS :=
  (construct_ok_iff coinM coinPS).mpr ⟨coin_valid, rfl⟩

/-- coinPS is a well-formed state. -/
lemma coin_wellFormed : WellFormed coinPS :=
  ⟨by decide, rfl, coin_valid⟩

/-- The coin mass of the event containing only outcome 0. -/
lemma coin_mass_0 : massOf coinM {0} = 1 / 2 := by
  simp [massOf, coinM, findMass]

/-- The coin mass of the event containing only outcome 1. -/
lemma coin_mass_1 : massOf coinM {1} = 1 / 2 := by
  simp [massOf, coinM, findMass]

/-- The coin mass of the union of the two singleton events. -/
lemma coin_mass_union : massOf coinM ({0} ∪ {1}) = 1 := by
  rw [show ({0} ∪ {1} : Finset ℕ) = {0, 1} from by decide]
  rw [massOf, Finset.sum_pair (by norm_num)]
  simp [coinM, findMass]
  norm_num

/-- The coin mass of the intersection of the two singleton events. -/
lemma coin_mass_inter : massOf coinM ({0} ∩ {1}) = 0 := by
  rw [show ({0} ∩ {1} : Finset ℕ) = ∅ from by decide]
  exact massOf_empty coinM

/-- C1: on every successfully constructed space, in either mode, a
successful probabilityOfSet query returns exactly the sum of the stored
masses of the outcomes of the event that are keys of the mass function;
moreover the empty event has probability 0 and the sample space has the
validated total mass. -/
theorem probabilityOfSet_sums_present_masses (M : List (T × ℚ))
    (ps : ProbabilitySpace T) (hnd : (M.map Prod.fst).Nodup)
    (hc : construct M = Except.ok ps) (b : Bool) :
    (∀ E r, probabilityOfSet (setIgnoreUnknown ps b) E = Except.ok r →
      r = ∑ o ∈ E.filter (fun o => o ∈ getKeys M), (findMass M o).getD 0)
    ∧ probabilityOfSet (setIgnoreUnknown ps b) ∅ = Except.ok 0
    ∧ probabilityOfSet (setIgnoreUnknown ps b) (getKeys M) =
        Except.ok (totalMass M) := by
  obtain ⟨hv, hps⟩ := (construct_ok_iff M ps).mp hc
  subst hps
  have hkeys : (setIgnoreUnknown ⟨M, getKeys M, false⟩ b).events =
      getKeys (setIgnoreUnknown ⟨M, getKeys M, false⟩ b).space := rfl
  refine ⟨?_, ?_, ?_⟩
  · intro E r hr
    rw [probabilityOfSet_eq _ hkeys E] at hr
    by_cases hcnd : (setIgnoreUnknown ⟨M, getKeys M, false⟩ b).ignoreUnknown
        = false ∧ ¬ E ⊆ (setIgnoreUnknown ⟨M, getKeys M, false⟩ b).events
    · rw [if_pos hcnd] at hr
      exact absurd hr (by simp)
    · rw [if_neg hcnd] at hr
      injection hr with hr
      rw [← hr, ← massOf_filter]
      rfl
  · rw [probabilityOfSet_eq _ hkeys ∅,
      if_neg (fun hcnd => hcnd.2 (Finset.empty_subset _)), massOf_empty]
  · rw [probabilityOfSet_eq _ hkeys (getKeys M),
      if_neg (fun hcnd => hcnd.2 (Finset.Subset.refl _))]
    show Except.ok (massOf M (getKeys M)) = _
    rw [massOf_getKeys M hnd]

/-- C1 witness: the coin space in permissive mode assigns probability 0 to
the empty event. -/
theorem probabilityOfSet_sums_present_masses_witness :
    probabilityOfSet (setIgnoreUnknown coinPS true) ∅ = Except.ok 0 :=
  (probabilityOfSet_sums_present_masses coinM coinPS (by decide)
    coin_construct true).2.1

/-- C2: construction succeeds exactly when every entry is nonnegative and
the total mass is within EPSILON of 1; a negative entry is reported with
the negative-mass message, a sum violation on nonnegative entries with the
sum-mismatch message, and the empty mass function is rejected with the
sum-mismatch message. -/
theorem construct_validates_distribution (M : List (T × ℚ)) :
    ((∃ ps, construct M = Except.ok ps) ↔
      (∀ p ∈ M, 0 ≤ p.2) ∧ |totalMass M - 1| ≤ EPSILON)
    ∧ ((∃ p ∈ M, p.2 < 0) → construct M = Except.error negativeMassMsg)
    ∧ ((∀ p ∈ M, 0 ≤ p.2) → |totalMass M - 1| > EPSILON →
        construct M = Except.error sumToOneMsg)
    ∧ construct ([] : List (T × ℚ)) = Except.error sumToOneMsg := by
  refine ⟨?_, ?_, ?_, ?_⟩
  · constructor
    · intro ⟨ps, hps⟩
      exact (valid_ok_iff M).mp ((construct_ok_iff M ps).mp hps).1
    · intro h
      exact ⟨⟨M, getKeys M, false⟩,
        (construct_ok_iff M _).mpr ⟨(valid_ok_iff M).mpr h, rfl⟩⟩
  · intro hneg
    rw [construct_error_iff]
    simp only [validProbabilitySpace]
    rw [sumEntries_err M 0 hneg]
  · intro hall hgt
    rw [construct_error_iff]
    simp only [validProbabilitySpace]
    rw [sumEntries_ok M 0 hall, zero_add]
    dsimp only
    rw [if_pos hgt]
  · rw [construct_error_iff]
    simp only [validProbabilitySpace, sumEntries]
    rw [if_pos (by rw [show |(0 : ℚ) - 1| = 1 from by norm_num]; norm_num [EPSILON])]

/-- C2 witness: a mass function with a negative entry is rejected with the
negative-mass message. -/
theorem construct_validates_distribution_witness :
    construct [((0 : ℕ), (-1 : ℚ))] = Except.error negativeMassMsg :=
  (construct_validates_distribution [((0 : ℕ), (-1 : ℚ))]).2.1
    ⟨(0, -1), by simp, by norm_num⟩

/-- C3: on a well-formed state in strict mode, each query fails with the
unknown-outcome message exactly when one of its event arguments is not a
subset of the sample space; in permissive mode no query ever fails with
the unknown-outcome message. -/
theorem strict_mode_unknownOutcome_iff (ps : ProbabilitySpace T)
    (hwf : WellFormed ps) :
    (ps.ignoreUnknown = false →
      (∀ E, probabilityOfSet ps E = Except.error unknownOutcomeMsg ↔
        ¬ E ⊆ ps.events)
      ∧ (∀ E, complementOfEvent ps E = Except.error unknownOutcomeMsg ↔
        ¬ E ⊆ ps.events)
      ∧ (∀ A B, unionOfEvents ps A B = Except.error unknownOutcomeMsg ↔
        (¬ A ⊆ ps.events ∨ ¬ B ⊆ ps.events))
      ∧ (∀ A B, intersectionOfEvents ps A B = Except.error unknownOutcomeMsg ↔
        (¬ A ⊆ ps.events ∨ ¬ B ⊆ ps.events))
      ∧ (∀ A B, conditionalProbability ps A B = Except.error unknownOutcomeMsg ↔
        (¬ A ⊆ ps.events ∨ ¬ B ⊆ ps.events)))
    ∧ (ps.ignoreUnknown = true →
      (∀ E, probabilityOfSet ps E ≠ Except.error unknownOutcomeMsg)
      ∧ (∀ E, complementOfEvent ps E ≠ Except.error unknownOutcomeMsg)
      ∧ (∀ A B, unionOfEvents ps A B ≠ Except.error unknownOutcomeMsg)
      ∧ (∀ A B, intersectionOfEvents ps A B ≠ Except.error unknownOutcomeMsg)
      ∧ (∀ A B, conditionalProbability ps A B ≠ Except.error unknownOutcomeMsg)) := by
  have hkeys := hwf.2.1
  have hmsg : conditionOnZeroMsg ≠ unknownOutcomeMsg := by decide
  constructor
  · intro hig
    refine ⟨?_, ?_, ?_, ?_, ?_⟩
    · intro E
      rw [probabilityOfSet_eq ps hkeys E]
      by_cases hE : E ⊆ ps.events
      · rw [if_neg fun hcnd => hcnd.2 hE]
        simp [hE]
      · rw [if_pos ⟨hig, hE⟩]
        simp [hE]
    · intro E
      rw [complementOfEvent_eq ps hkeys E]
      by_cases hE : E ⊆ ps.events
      · rw [if_neg fun hcnd => hcnd.2 hE]
        simp [hE]
      · rw [if_pos ⟨hig, hE⟩]
        simp [hE]
    · intro A B
      rw [unionOfEvents_eq ps hkeys A B]
      by_cases hA : A ⊆ ps.events
      · rw [if_neg fun hcnd => hcnd.2 hA]
        by_cases hB : B ⊆ ps.events
        · rw [if_neg fun hcnd => hcnd.2 hB]
          simp [hA, hB]
        · rw [if_pos ⟨hig, hB⟩]
          simp [hB]
      · rw [if_pos ⟨hig, hA⟩]
        simp [hA]
    · intro A B
      rw [intersectionOfEvents_eq ps hkeys A B]
      by_cases hA : A ⊆ ps.events
      · rw [if_neg fun hcnd => hcnd.2 hA]
        by_cases hB : B ⊆ ps.events
        · rw [if_neg fun hcnd => hcnd.2 hB]
          simp [hA, hB]
        · rw [if_pos ⟨hig, hB⟩]
          simp [hB]
      · rw [if_pos ⟨hig, hA⟩]
        simp [hA]
    · intro A B
      rw [conditionalProbability_eq ps hkeys A B]
      by_cases hA : A ⊆ ps.events
      · rw [if_neg fun hcnd => hcnd.2 hA]
        by_cases hB : B ⊆ ps.events
        · rw [if_neg fun hcnd => hcnd.2 hB]
          by_cases hz : massOf ps.space B = 0
          · rw [if_pos hz]
            simp [hA, hB, hmsg]
          · rw [if_neg hz]
            simp [hA, hB]
        · rw [if_pos ⟨hig, hB⟩]
          simp [hB]
      · rw [if_pos ⟨hig, hA⟩]
        simp [hA]
  · intro hig
    have hnotfalse : ¬ ps.ignoreUnknown = false := by rw [hig]; simp
    refine ⟨?_, ?_, ?_, ?_, ?_⟩
    · intro E
      rw [probabilityOfSet_eq ps hkeys E, if_neg fun hcnd => hnotfalse hcnd.1]
      simp
    · intro E
      rw [complementOfEvent_eq ps hkeys E, if_neg fun hcnd => hnotfalse hcnd.1]
      simp
    · intro A B
      rw [unionOfEvents_eq ps hkeys A B, if_neg fun hcnd => hnotfalse hcnd.1,
        if_neg fun hcnd => hnotfalse hcnd.1]
      simp
    · intro A B
      rw [intersectionOfEvents_eq ps hkeys A B,
        if_neg fun hcnd => hnotfalse hcnd.1, if_neg fun hcnd => hnotfalse hcnd.1]
      simp
    · intro A B
      rw [conditionalProbability_eq ps hkeys A B,
        if_neg fun hcnd => hnotfalse hcnd.1, if_neg fun hcnd => hnotfalse hcnd.1]
      by_cases hz : massOf ps.space B = 0
      · rw [if_pos hz]
        simp [hmsg]
      · rw [if_neg hz]
        simp

/-- C3 witness: on the strict-mode coin space, a query on the singleton
event of the foreign outcome 2 fails with the unknown-outcome message
exactly because that event is not a subset of the sample space. -/
theorem strict_mode_unknownOutcome_iff_witness :
    probabilityOfSet coinPS {2} = Except.error unknownOutcomeMsg ↔
      ¬ ({2} : Finset ℕ) ⊆ coinPS.events :=
  ((strict_mode_unknownOutcome_iff coinPS coin_wellFormed).1 rfl).1 {2}

/-- C4: on a well-formed state, the conditional query applies the
strict-mode subset check to each argument in turn, then fails with the
condition-on-zero message exactly when the mass of the conditioning event
is exactly 0, and otherwise returns the ratio of the intersection mass to
the conditioning mass. -/
theorem conditionalProbability_zero_denominator (ps : ProbabilitySpace T)
    (hwf : WellFormed ps) (A B : Finset T) :
    ((ps.ignoreUnknown = false ∧ ¬ A ⊆ ps.events) →
      conditionalProbability ps A B = Except.error unknownOutcomeMsg)
    ∧ ((ps.ignoreUnknown = false ∧ A ⊆ ps.events ∧ ¬ B ⊆ ps.events) →
      conditionalProbability ps A B = Except.error unknownOutcomeMsg)
    ∧ ((ps.ignoreUnknown = true ∨ (A ⊆ ps.events ∧ B ⊆ ps.events)) →
      (conditionalProbability ps A B = Except.error conditionOnZeroMsg ↔
        massOf ps.space B = 0)
      ∧ (massOf ps.space B ≠ 0 →
        conditionalProbability ps A B =
          Except.ok (massOf ps.space (A ∩ B) / massOf ps.space B))) := by
  have hkeys := hwf.2.1
  have hmsg : unknownOutcomeMsg ≠ conditionOnZeroMsg := by decide
  rw [conditionalProbability_eq ps hkeys A B]
  refine ⟨?_, ?_, ?_⟩
  · intro hA
    rw [if_pos hA]
  · intro ⟨hig, hA, hB⟩
    rw [if_neg fun hcnd => hcnd.2 hA, if_pos ⟨hig, hB⟩]
  · intro hmode
    have hnA : ¬ (ps.ignoreUnknown = false ∧ ¬ A ⊆ ps.events) := by
      rcases hmode with hig | ⟨hA, _⟩
      · rw [hig]; simp
      · exact fun hcnd => hcnd.2 hA
    have hnB : ¬ (ps.ignoreUnknown = false ∧ ¬ B ⊆ ps.events) := by
      rcases hmode with hig | ⟨_, hB⟩
      · rw [hig]; simp
      · exact fun hcnd => hcnd.2 hB
    rw [if_neg hnA, if_neg hnB]
    constructor
    · by_cases hz : massOf ps.space B = 0
      · rw [if_pos hz]
        simp [hz]
      · rw [if_neg hz]
        simp [hz]
    · intro hz
      rw [if_neg hz]

/-- C4 witness: conditioning the coin space on the empty event fails with
the condition-on-zero message. -/
theorem conditionalProbability_zero_denominator_witness :
    conditionalProbability coinPS {0} ∅ = Except.error conditionOnZeroMsg :=
  (((conditionalProbability_zero_denominator coinPS coin_wellFormed
    {0} ∅).2.2 (Or.inr ⟨by decide, Finset.empty_subset _⟩)).1).mpr
    (massOf_empty coinM)

/-- C5 (as amended): on a well-formed state, a successful probabilityOfSet
query on an event inside the sample space returns a value in the interval
from 0 to 1 + EPSILON. -/
theorem probabilityOfSet_bounds (ps : ProbabilitySpace T)
    (hwf : WellFormed ps) (E : Finset T) (hE : E ⊆ ps.events) (r : ℚ)
    (hr : probabilityOfSet ps E = Except.ok r) :
    0 ≤ r ∧ r ≤ 1 + EPSILON := by
  obtain ⟨hnd, hkeys, hv⟩ := hwf
  obtain ⟨hall, habs⟩ := (valid_ok_iff ps.space).mp hv
  rw [probabilityOfSet_eq ps hkeys E, if_neg fun hcnd => hcnd.2 hE] at hr
  injection hr with hr
  subst hr
  constructor
  · exact massOf_nonneg ps.space E hall
  · have h1 : massOf ps.space E ≤ totalMass ps.space :=
      massOf_le_totalMass ps.space E hnd hall (hkeys ▸ hE)
    have h2 : totalMass ps.space - 1 ≤ EPSILON := (abs_le.mp habs).2
    linarith

/-- C5 witness: the bound applied to the coin space and the empty event. -/
theorem probabilityOfSet_bounds_witness :
    (0 : ℚ) ≤ 0 ∧ (0 : ℚ) ≤ 1 + EPSILON :=
  probabilityOfSet_bounds coinPS coin_wellFormed ∅ (Finset.empty_subset _) 0
    (by rw [probabilityOfSet_eq coinPS rfl ∅,
      if_neg fun hcnd => hcnd.2 (Finset.empty_subset _), massOf_empty])

/-- The one-outcome mass function whose single mass is a hair above 1 and
still passes the EPSILON validation. -/
def inflatedM : List (ℕ × ℚ) := [(0, 1 + 1 / 2000000000)]

/-- The state constructed from the inflated mass function. -/
def inflatedPS : ProbabilitySpace ℕ :=
  { space := inflatedM, events := getKeys inflatedM, ignoreUnknown := false }

/-- C5 counterexample: the inflated mass function is accepted by the
constructor, yet the probability of the event containing its single
outcome is strictly greater than 1, so probabilityOfSet does not always
lie in the closed interval from 0 to 1. -/
theorem probabilityOfSet_bounds_counterexample :
    construct inflatedM = Except.ok inflatedPS
    ∧ probabilityOfSet inflatedPS {0} = Except.ok (1 + 1 / 2000000000)
    ∧ ¬ ((1 + 1 / 2000000000 : ℚ) ≤ 1) := by
  have hv : validProbabilitySpace inflatedM = Except.ok () := by
    rw [valid_ok_iff]
    constructor
    · intro p hp
      simp only [inflatedM, List.mem_cons, List.not_mem_nil, or_false] at hp
      rw [hp]
      norm_num
    · rw [show totalMass inflatedM = 1 + 1 / 2000000000 from by
        norm_num [totalMass, inflatedM]]
      rw [show |(1 + 1 / 2000000000 : ℚ) - 1| = 1 / 2000000000 from by
        norm_num]
      norm_num [EPSILON]
  refine ⟨(construct_ok_iff inflatedM inflatedPS).mpr ⟨hv, rfl⟩, ?_, by norm_num⟩
  rw [probabilityOfSet_eq inflatedPS rfl {0},
    if_neg fun hcnd => hcnd.2 (by decide)]
  show Except.ok (massOf inflatedM {0}) = _
  rw [show massOf inflatedM {0} = 1 + 1 / 2000000000 from by
    simp [massOf, inflatedM, findMass]]

/-- C6: on a well-formed state, for events inside the sample space,
inclusion-exclusion holds within EPSILON between the union, the two
probabilities and the intersection returned by the queries (the identity
is in fact exact). -/
theorem union_inclusion_exclusion (ps : ProbabilitySpace T)
    (hwf : WellFormed ps) (A B : Finset T) (hA : A ⊆ ps.events)
    (hB : B ⊆ ps.events) (u a b i : ℚ)
    (hu : unionOfEvents ps A B = Except.ok u)
    (ha : probabilityOfSet ps A = Except.ok a)
    (hb : probabilityOfSet ps B = Except.ok b)
    (hi : intersectionOfEvents ps A B = Except.ok i) :
    |u - (a + b - i)| ≤ EPSILON := by
  have hkeys := hwf.2.1
  rw [unionOfEvents_eq ps hkeys A B, if_neg fun hcnd => hcnd.2 hA,
    if_neg fun hcnd => hcnd.2 hB] at hu
  rw [probabilityOfSet_eq ps hkeys A, if_neg fun hcnd => hcnd.2 hA] at ha
  rw [probabilityOfSet_eq ps hkeys B, if_neg fun hcnd => hcnd.2 hB] at hb
  rw [intersectionOfEvents_eq ps hkeys A B, if_neg fun hcnd => hcnd.2 hA,
    if_neg fun hcnd => hcnd.2 hB] at hi
  injection hu with hu
  injection ha with ha
  injection hb with hb
  injection hi with hi
  have hie := massOf_union_inter ps.space A B
  have hz : u - (a + b - i) = 0 := by
    rw [← hu, ← ha, ← hb, ← hi]
    linarith
  rw [hz]
  norm_num [EPSILON]

/-- C6 witness: inclusion-exclusion on the coin space with the two
singleton events. -/
theorem union_inclusion_exclusion_witness :
    |(1 : ℚ) - (1 / 2 + 1 / 2 - 0)| ≤ EPSILON :=
  union_inclusion_exclusion coinPS coin_wellFormed {0} {1} (by decide)
    (by decide) 1 (1 / 2) (1 / 2) 0
    (by rw [unionOfEvents_eq coinPS rfl, if_neg fun hcnd => hcnd.2 (by decide),
          if_neg fun hcnd => hcnd.2 (by decide)]
        show Except.ok (massOf coinM ({0} ∪ {1})) = _
        rw [coin_mass_union])
    (by rw [probabilityOfSet_eq coinPS rfl, if_neg fun hcnd => hcnd.2 (by decide)]
        show Except.ok (massOf coinM {0}) = _
        rw [coin_mass_0])
    (by rw [probabilityOfSet_eq coinPS rfl, if_neg fun hcnd => hcnd.2 (by decide)]
        show Except.ok (massOf coinM {1}) = _
        rw [coin_mass_1])
    (by rw [intersectionOfEvents_eq coinPS rfl,
          if_neg fun hcnd => hcnd.2 (by decide),
          if_neg fun hcnd => hcnd.2 (by decide)]
        show Except.ok (massOf coinM ({0} ∩ {1})) = _
        rw [coin_mass_inter])

/-- C7: on a well-formed state, when every event argument is a subset of
the sample space, every query returns the same value whatever the mode
flag is set to. -/
theorem mode_has_no_influence_on_subset_events (ps : ProbabilitySpace T)
    (hwf : WellFormed ps) (b b' : Bool) (E A B : Finset T)
    (hE : E ⊆ ps.events) (hA : A ⊆ ps.events) (hB : B ⊆ ps.events) :
    probabilityOfSet (setIgnoreUnknown ps b) E =
      probabilityOfSet (setIgnoreUnknown ps b') E
    ∧ complementOfEvent (setIgnoreUnknown ps b) E =
      complementOfEvent (setIgnoreUnknown ps b') E
    ∧ unionOfEvents (setIgnoreUnknown ps b) A B =
      unionOfEvents (setIgnoreUnknown ps b') A B
    ∧ intersectionOfEvents (setIgnoreUnknown ps b) A B =
      intersectionOfEvents (setIgnoreUnknown ps b') A B
    ∧ conditionalProbability (setIgnoreUnknown ps b) A B =
      conditionalProbability (setIgnoreUnknown ps b') A B := by
  have hkeys := hwf.2.1
  refine ⟨?_, ?_, ?_, ?_, ?_⟩
  · rw [probabilityOfSet_eq (setIgnoreUnknown ps b) hkeys E,
      probabilityOfSet_eq (setIgnoreUnknown ps b') hkeys E,
      if_neg fun hcnd => hcnd.2 hE, if_neg fun hcnd => hcnd.2 hE]
    rfl
  · rw [complementOfEvent_eq (setIgnoreUnknown ps b) hkeys E,
      complementOfEvent_eq (setIgnoreUnknown ps b') hkeys E,
      if_neg fun hcnd => hcnd.2 hE, if_neg fun hcnd => hcnd.2 hE]
    rfl
  · rw [unionOfEvents_eq (setIgnoreUnknown ps b) hkeys A B,
      if_neg fun hcnd => hcnd.2 hA, if_neg fun hcnd => hcnd.2 hB,
      unionOfEvents_eq (setIgnoreUnknown ps b') hkeys A B,
      if_neg fun hcnd => hcnd.2 hA, if_neg fun hcnd => hcnd.2 hB]
    rfl
  · rw [intersectionOfEvents_eq (setIgnoreUnknown ps b) hkeys A B,
      if_neg fun hcnd => hcnd.2 hA, if_neg fun hcnd => hcnd.2 hB,
      intersectionOfEvents_eq (setIgnoreUnknown ps b') hkeys A B,
      if_neg fun hcnd => hcnd.2 hA, if_neg fun hcnd => hcnd.2 hB]
    rfl
  · have hcomp : ∀ c : Bool,
        conditionalProbability (setIgnoreUnknown ps c) A B =
          if massOf ps.space B = 0 then Except.error conditionOnZeroMsg
          else Except.ok (massOf ps.space (A ∩ B) / massOf ps.space B) := by
      intro c
      rw [conditionalProbability_eq (setIgnoreUnknown ps c) hkeys A B,
        if_neg fun hcnd => hcnd.2 hA, if_neg fun hcnd => hcnd.2 hB]
      rfl
    rw [hcomp b, hcomp b']

/-- C7 witness: the coin space queried on its own singleton events gives
identical results in strict and permissive mode. -/
theorem mode_has_no_influence_on_subset_events_witness :
    probabilityOfSet (setIgnoreUnknown coinPS false) {0} =
      probabilityOfSet (setIgnoreUnknown coinPS true) {0}
    ∧ complementOfEvent (setIgnoreUnknown coinPS false) {0} =
      complementOfEvent (setIgnoreUnknown coinPS true) {0}
    ∧ unionOfEvents (setIgnoreUnknown coinPS false) {0} {1} =
      unionOfEvents (setIgnoreUnknown coinPS true) {0} {1}
    ∧ intersectionOfEvents (setIgnoreUnknown coinPS false) {0} {1} =
      intersectionOfEvents (setIgnoreUnknown coinPS true) {0} {1}
    ∧ conditionalProbability (setIgnoreUnknown coinPS false) {0} {1} =
      conditionalProbability (setIgnoreUnknown coinPS true) {0} {1} :=
  mode_has_no_influence_on_subset_events coinPS coin_wellFormed false true
    {0} {0} {1} (by decide) (by decide) (by decide)

/-- C8: setIgnoreUnknown changes the mode flag and nothing else,
getCurrentMode reads back the flag just set, and a freshly constructed
state has the flag false. The query operations are const member functions
and are embedded as pure functions of the state, so they leave the stored
mass function, the sample space and the flag unchanged by construction. -/
theorem setIgnoreUnknown_frame (ps : ProbabilitySpace T) (b : Bool) :
    (setIgnoreUnknown ps b).space = ps.space
    ∧ (setIgnoreUnknown ps b).events = ps.events
    ∧ getCurrentMode (setIgnoreUnknown ps b) = b
    ∧ (∀ (M : List (T × ℚ)) (ps0 : ProbabilitySpace T),
        construct M = Except.ok ps0 → getCurrentMode ps0 = false) := by
  refine ⟨rfl, rfl, rfl, ?_⟩
  intro M ps0 h
  obtain ⟨_, hps⟩ := (construct_ok_iff M ps0).mp h
  rw [hps]
  rfl

/-- C8 witness: the freshly constructed coin space reports strict mode. -/
theorem setIgnoreUnknown_frame_witness : getCurrentMode coinPS = false :=
  (setIgnoreUnknown_frame coinPS true).2.2.2 coinM coinPS coin_construct

/-- C9: the constructor fails only with the two InvalidDistribution
messages, the four plain queries fail only with the unknown-outcome
message, the conditional query fails only with the unknown-outcome or the
condition-on-zero message, and the four messages are pairwise distinct, so
the caller can tell every error kind apart. -/
theorem error_kinds_distinguishable :
    (∀ (M : List (T × ℚ)) (e : String), construct M = Except.error e →
      e = negativeMassMsg ∨ e = sumToOneMsg)
    ∧ (∀ (ps : ProbabilitySpace T) (E : Finset T) (e : String),
      probabilityOfSet ps E = Except.error e → e = unknownOutcomeMsg)
    ∧ (∀ (ps : ProbabilitySpace T) (E : Finset T) (e : String),
      complementOfEvent ps E = Except.error e → e = unknownOutcomeMsg)
    ∧ (∀ (ps : ProbabilitySpace T) (A B : Finset T) (e : String),
      unionOfEvents ps A B = Except.error e → e = unknownOutcomeMsg)
    ∧ (∀ (ps : ProbabilitySpace T) (A B : Finset T) (e : String),
      intersectionOfEvents ps A B = Except.error e → e = unknownOutcomeMsg)
    ∧ (∀ (ps : ProbabilitySpace T) (A B : Finset T) (e : String),
      conditionalProbability ps A B = Except.error e →
        e = unknownOutcomeMsg ∨ e = conditionOnZeroMsg)
    ∧ (negativeMassMsg ≠ sumToOneMsg ∧ negativeMassMsg ≠ unknownOutcomeMsg
      ∧ negativeMassMsg ≠ conditionOnZeroMsg ∧ sumToOneMsg ≠ unknownOutcomeMsg
      ∧ sumToOneMsg ≠ conditionOnZeroMsg
      ∧ unknownOutcomeMsg ≠ conditionOnZeroMsg) := by
  refine ⟨?_, ?_, ?_, ?_, ?_, ?_, by decide, by decide, by decide, by decide,
    by decide, by decide⟩
  · intro M e h
    exact valid_error_msg M e ((construct_error_iff M e).mp h)
  · intro ps E e h
    exact probabilityCalculator_error_msg ps E e h
  · intro ps E e h
    exact complement_error_msg ps E e h
  · intro ps A B e h
    exact unionEvents_error_msg ps A B e h
  · intro ps A B e h
    exact intersectionEvents_error_msg ps A B e h
  · intro ps A B e h
    exact conditionalProbabilityImpl_error_msg ps A B e h

/-- C9 witness: the rejection of a negative mass function is classified
among the InvalidDistribution messages. -/
theorem error_kinds_distinguishable_witness :
    negativeMassMsg = negativeMassMsg ∨ negativeMassMsg = sumToOneMsg :=
  (error_kinds_distinguishable (T := ℕ)).1 [((0 : ℕ), (-1 : ℚ))]
    negativeMassMsg
    (by rw [construct_error_iff]
        simp only [validProbabilitySpace]
        rw [sumEntries_err _ 0 ⟨(0, -1), by simp, by norm_num⟩])

/-- C10: the union and intersection queries are commutative in their two
event arguments, exactly, on every state and every pair of events. -/
theorem union_intersection_commutative (ps : ProbabilitySpace T)
    (A B : Finset T) :
    unionOfEvents ps A B = unionOfEvents ps B A
    ∧ intersectionOfEvents ps A B = intersectionOfEvents ps B A := by
  rcases isSubset_cases ps A with hA | hA <;>
    rcases isSubset_cases ps B with hB | hB <;>
    exact ⟨by simp [unionOfEvents, unionEvents, hA, hB, Finset.union_comm],
      by simp [intersectionOfEvents, intersectionEvents, hA, hB,
        Finset.inter_comm]⟩

/-- C10 witness: commutativity of the two-event queries on the coin space
and its two singleton events. -/
theorem union_intersection_commutative_witness :
    unionOfEvents coinPS {0} {1} = unionOfEvents coinPS {1} {0}
    ∧ intersectionOfEvents coinPS {0} {1} =
      intersectionOfEvents coinPS {1} {0} :=
  union_intersection_commutative coinPS {0} {1}

end ProbEngine
